import Mathlib

/-!
# Verification of the Multimodal RAG core (ingestion / indexing / search)

Shallow embedding of `main.py` (`class MultimodalRAG`): content hashing,
storage, metadata indexing, text chunking, keyword search and snippet
extraction, plus the FastAPI `/search` entry point.

Modelling conventions:
* Python `str` is modelled as `List Char`; Python `bytes` as `List Nat`.
* The Python `dict` `self.metadata` (persisted to `metadata.json` after every
  mutation) is modelled as an insertion-ordered association list with
  dict-assignment (`upsert`) semantics; the model identifies the in-memory
  mapping with its persisted snapshot, since `_save_metadata` rewrites the
  snapshot after each mutation.
* The filesystem blob store (one subdirectory per declared kind, file name
  `hash + extension`, silent overwrite) is an association list keyed by path.
* External libraries (`hashlib.md5`, utf-8 decoding, PyPDF2, python-docx,
  moviepy, librosa) are environment parameters: every theorem below holds for
  an arbitrary environment, and concrete environments instantiate witnesses.
-/

set_option autoImplicit false

namespace MMRag

/-- Python `str`, modelled as its list of characters. -/
abbrev Text := List Char

/-- Python `bytes`, modelled as a list of byte values. -/
abbrev Bytes := List Nat

/-- Coerce a Lean string literal into the `Text` model. -/
def txt (s : String) : Text := s.data

/-- Python `str.lower()` (per-character lowering). -/
def pyLower (t : Text) : Text := t.map Char.toLower

/-- Is `a` a prefix of `b`?  (Executable; used by the `find` model.) -/
def pfx : Text → Text → Bool
  | [], _ => true
  | _ :: _, [] => false
  | a :: as, b :: bs => a = b && pfx as bs

/-- Helper for Python `str.find`: first index `≥ i` (counting from the start
of the original string) at which `pat` occurs in the remaining text. -/
def findFrom (pat : Text) : Text → Nat → Option Nat
  | [], i => if pfx pat [] then some i else none
  | c :: rest, i => if pfx pat (c :: rest) then some i else findFrom pat rest (i + 1)

/-- Python `hay.find(pat)`, returning `none` for `-1`. -/
def pyFind (hay pat : Text) : Option Nat := findFrom pat hay 0

/-- Python `pat in hay` substring containment. -/
def pyContains (hay pat : Text) : Bool := (pyFind hay pat).isSome

/-- The case-insensitive containment test `query.lower() in content.lower()`
used by `MultimodalRAG.search`. -/
def containsCI (content q : Text) : Bool := pyContains (pyLower content) (pyLower q)

/-- `pat` occurs (case-insensitively) in `t` at position `p`. -/
def occursAtCI (t q : Text) (p : Nat) : Bool := pfx (pyLower q) ((pyLower t).drop p)

/-- Helper for Python `str.split()` (split on whitespace runs, no empties):
`acc` holds the reversed current word. -/
def splitAux : Text → Text → List Text
  | [], acc => if acc = [] then [] else [acc.reverse]
  | c :: rest, acc =>
    if c.isWhitespace then
      if acc = [] then splitAux rest [] else acc.reverse :: splitAux rest []
    else splitAux rest (c :: acc)

/-- Python `text.split()` — whitespace-normalized word sequence. -/
def pysplit (t : Text) : List Text := splitAux t []

/-- Python `' '.join(chunks)`. -/
def sjoin : List Text → Text
  | [] => []
  | [c] => c
  | c :: c2 :: cs => c ++ ' ' :: sjoin (c2 :: cs)

/-- Loop state of `MultimodalRAG._chunk_text`:
accumulated `chunks`, the `current_chunk` word list, and `current_size`. -/
structure CState where
  chunks : List Text
  cur : List Text
  size : Nat
deriving DecidableEq

/-- One iteration of the `for word in words` loop in `_chunk_text`. -/
def chunkStep (N : Nat) (s : CState) (w : Text) : CState :=
  if N < s.size + w.length ∧ s.cur ≠ [] then
    ⟨s.chunks ++ [sjoin s.cur], [w], w.length⟩
  else
    ⟨s.chunks, s.cur ++ [w], s.size + w.length + 1⟩

/-- The trailing `if current_chunk: chunks.append(...)` of `_chunk_text`. -/
def chunkFinish (s : CState) : List Text :=
  if s.cur = [] then s.chunks else s.chunks ++ [sjoin s.cur]

/-- `_chunk_text` restricted to its word list (the loop plus final flush). -/
def chunkWords (ws : List Text) (N : Nat) : List Text :=
  chunkFinish (ws.foldl (chunkStep N) ⟨[], [], 0⟩)

/-- `MultimodalRAG._chunk_text(text, chunk_size)` (default `chunk_size=500`). -/
def chunkText (t : Text) (N : Nat) : List Text := chunkWords (pysplit t) N

/-- Last index of `c` in `t`, Python `t.rfind(c)` with `none` for `-1`. -/
def rlast (c : Char) : Text → Option Nat
  | [] => none
  | x :: rest =>
    match rlast c rest with
    | some i => some (i + 1)
    | none => if x = c then some 0 else none

/-- `pathlib.PurePath(t).name`: the component after the last `/`. -/
def basename (t : Text) : Text :=
  match rlast '/' t with
  | some i => t.drop (i + 1)
  | none => t

/-- `pathlib.PurePath(filename).suffix.lower()` (`Path(filename).suffix`
returns `name[i:]` for the last dot index `i` with `0 < i < len(name)-1`,
else the empty string), as computed in each `process_*` method. -/
def pySuffix (filename : Text) : Text :=
  let name := basename filename
  pyLower
    (match rlast '.' name with
     | some i => if 0 < i ∧ i + 1 < name.length then name.drop i else []
     | none => [])

/-- Python `str.strip()` (no argument: strip whitespace both ends). -/
def pyStrip (t : Text) : Text :=
  ((t.dropWhile Char.isWhitespace).reverse.dropWhile Char.isWhitespace).reverse

/-- Python `t.split(',')` (keeps empty fields; `acc` is the reversed field). -/
def splitCommaAux : Text → Text → List Text
  | [], acc => [acc.reverse]
  | c :: rest, acc =>
    if c = ',' then acc.reverse :: splitCommaAux rest [] else splitCommaAux rest (c :: acc)

/-- Python `t.split(',')`. -/
def splitComma (t : Text) : List Text := splitCommaAux t []

/-- Storage path of a blob: declared-kind subdirectory (`documents`, `videos`
or `audio` under the storage root) plus file name `hash + extension`. -/
structure FPath where
  dir : Text
  name : Text
deriving DecidableEq

/-- One value of the `self.metadata[file_hash]` dict built by the three
`process_*` methods.  Keys that a given kind does not set are `none`
(`metadata.get(key, default)` is modelled by `Option.getD`). -/
structure Record where
  filename : Text
  fileType : Text
  fileExt : Text
  fileHash : Text
  filePath : FPath
  textContent : Option Text
  fullTextLength : Option Nat
  chunks : Option (List Text)
  duration : Option Nat
  transcription : Option Text
  framesExtracted : Option Nat
  sampleRate : Option Nat
deriving DecidableEq

/-- The persistent state of a `MultimodalRAG` instance: the metadata index
(`self.metadata`, rewritten to `metadata.json` after every mutation) and the
blob store (files written under the kind subdirectories). -/
structure RAGState where
  index : List (Text × Record)
  storage : List (FPath × Bytes)
deriving DecidableEq

/-- Python dict assignment `d[k] = v` on an insertion-ordered association
list: replace in place if the key is present, else append. -/
def upsert (k : Text) (v : Record) : List (Text × Record) → List (Text × Record)
  | [] => [(k, v)]
  | (k', v') :: rest => if k' = k then (k, v) :: rest else (k', v') :: upsert k v rest

/-- Writing a blob with `open(saved_path, 'wb')`: silent overwrite. -/
def storePut (p : FPath) (b : Bytes) : List (FPath × Bytes) → List (FPath × Bytes)
  | [] => [(p, b)]
  | (p', b') :: rest => if p' = p then (p, b) :: rest else (p', b') :: storePut p b rest

/-- `self.metadata.get(file_hash)` — first (and, for a dict, only) record
stored under a key. -/
def getRec (k : Text) : List (Text × Record) → Option Record
  | [] => none
  | (k', v) :: rest => if k' = k then some v else getRec k rest

/-- Look up a stored blob by path. -/
def getStore (p : FPath) : List (FPath × Bytes) → Option Bytes
  | [] => none
  | (p', b) :: rest => if p' = p then some b else getStore p rest

/-- Key sequence of the metadata index. -/
def keysOf (l : List (Text × Record)) : List Text := l.map Prod.fst

/-- Number of index entries stored under a key. -/
def countKey (k : Text) (l : List (Text × Record)) : Nat :=
  (l.filter fun e => e.1 = k).length

/-- Outcome of a `try: import <parser>; ... except ImportError ... except
Exception as e` text extractor (`_extract_pdf_text` / `_extract_docx_text`). -/
inductive XResult where
  | ok (t : Text)
  | importErr
  | exn (msg : Text)

/-- Outcome of `_extract_video_info`'s `try` body (moviepy): the clip
duration, or a failure. -/
inductive VResult where
  | ok (duration : Nat)
  | importErr
  | exn (msg : Text)

/-- Outcome of `_extract_audio_info`'s `try` body (librosa): duration and
sample rate, or a failure. -/
inductive AResult where
  | ok (duration sampleRate : Nat)
  | importErr
  | exn (msg : Text)

/-- The external world: `hashlib.md5(...).hexdigest()` (a pure function of
the bytes only), `bytes.decode('utf-8', errors='ignore')`, and the four
optional parser libraries.  All theorems hold for every environment. -/
structure Env where
  hashHex : Bytes → Text
  decodeUtf8 : Bytes → Text
  pdfExtract : Bytes → XResult
  docxExtract : Bytes → XResult
  videoInfo : Bytes → VResult
  audioInfo : Bytes → AResult

/-- `MultimodalRAG._extract_pdf_text`. -/
def extractPdfText (env : Env) (b : Bytes) : Text :=
  match env.pdfExtract b with
  | .ok t => t
  | .importErr => txt "PDF text extraction requires PyPDF2 library"
  | .exn m => txt "Error extracting PDF text: " ++ m

/-- `MultimodalRAG._extract_docx_text`. -/
def extractDocxText (env : Env) (b : Bytes) : Text :=
  match env.docxExtract b with
  | .ok t => t
  | .importErr => txt "DOCX text extraction requires python-docx library"
  | .exn m => txt "Error extracting DOCX text: " ++ m

/-- The `if/elif` extension dispatch inside `process_document`. -/
def extractDocText (env : Env) (ext : Text) (b : Bytes) : Text :=
  if ext = txt ".txt" then env.decodeUtf8 b
  else if ext = txt ".pdf" then extractPdfText env b
  else if ext = txt ".docx" ∨ ext = txt ".doc" then extractDocxText env b
  else txt "Unsupported document type: " ++ ext

/-- `MultimodalRAG._extract_video_info`: `(duration, transcription,
frames_count)` — on success the transcription is a fixed placeholder and
`frames_count = min(10, int(duration))`. -/
def extractVideoInfo (env : Env) (b : Bytes) : Nat × Text × Nat :=
  match env.videoInfo b with
  | .ok d => (d, txt "Video transcription requires Whisper or similar speech-to-text service", min 10 d)
  | .importErr => (0, txt "Video processing requires moviepy library", 0)
  | .exn m => (0, txt "Error processing video: " ++ m, 0)

/-- `MultimodalRAG._extract_audio_info`: `(duration, transcription,
sample_rate)`. -/
def extractAudioInfo (env : Env) (b : Bytes) : Nat × Text × Nat :=
  match env.audioInfo b with
  | .ok d sr => (d, txt "Audio transcription requires Whisper or similar speech-to-text service", sr)
  | .importErr => (0, txt "Audio processing requires librosa library", 0)
  | .exn m => (0, txt "Error processing audio: " ++ m, 0)

/-- The result dict returned by the three `process_*` methods. -/
structure ProcResult where
  fileHash : Text
  status : Text
  type : Text
  textPreview : Option Text
  chunksCount : Option Nat
  duration : Option Nat
  transcriptionPreview : Option Text
deriving DecidableEq

/-- The metadata dict built by `process_document`: the stored `text_content`
is only the first 1000 characters of the extracted text (`[:1000]`), while
`chunks` are computed from the full text with the default budget 500. -/
def docRecordOf (env : Env) (b : Bytes) (filename : Text) : Record :=
  ⟨filename, txt "document", pySuffix filename, env.hashHex b,
   ⟨txt "documents", env.hashHex b ++ pySuffix filename⟩,
   some ((extractDocText env (pySuffix filename) b).take 1000),
   some (extractDocText env (pySuffix filename) b).length,
   some (chunkText (extractDocText env (pySuffix filename) b) 500),
   none, none, none, none⟩

/-- `MultimodalRAG.process_document(file_content, filename)`. -/
def processDocument (env : Env) (b : Bytes) (filename : Text) (st : RAGState) :
    RAGState × ProcResult :=
  let fileHash := env.hashHex b
  let fileExt := pySuffix filename
  let savedPath : FPath := ⟨txt "documents", fileHash ++ fileExt⟩
  let storage1 := storePut savedPath b st.storage
  let textContent := extractDocText env fileExt b
  (⟨upsert fileHash (docRecordOf env b filename) st.index, storage1⟩,
   ⟨fileHash, txt "processed", txt "document", some (textContent.take 200),
    some (chunkText textContent 500).length, none, none⟩)

/-- `MultimodalRAG.process_video(file_content, filename)`. -/
def processVideo (env : Env) (b : Bytes) (filename : Text) (st : RAGState) :
    RAGState × ProcResult :=
  let fileHash := env.hashHex b
  let fileExt := pySuffix filename
  let savedPath : FPath := ⟨txt "videos", fileHash ++ fileExt⟩
  let storage1 := storePut savedPath b st.storage
  let info := extractVideoInfo env b
  let record : Record :=
    ⟨filename, txt "video", fileExt, fileHash, savedPath,
     none, none, none, some info.1, some info.2.1, some info.2.2, none⟩
  (⟨upsert fileHash record st.index, storage1⟩,
   ⟨fileHash, txt "processed", txt "video", none, none,
    some info.1, some (info.2.1.take 200)⟩)

/-- `MultimodalRAG.process_audio(file_content, filename)`. -/
def processAudio (env : Env) (b : Bytes) (filename : Text) (st : RAGState) :
    RAGState × ProcResult :=
  let fileHash := env.hashHex b
  let fileExt := pySuffix filename
  let savedPath : FPath := ⟨txt "audio", fileHash ++ fileExt⟩
  let storage1 := storePut savedPath b st.storage
  let info := extractAudioInfo env b
  let record : Record :=
    ⟨filename, txt "audio", fileExt, fileHash, savedPath,
     none, none, none, some info.1, some info.2.1, none, some info.2.2⟩
  (⟨upsert fileHash record st.index, storage1⟩,
   ⟨fileHash, txt "processed", txt "audio", none, none,
    some info.1, some (info.2.1.take 200)⟩)

/-- The three declared ingestion kinds (one upload entry point each). -/
inductive FileKind where
  | document
  | video
  | audio
deriving DecidableEq

/-- Ingestion under a declared kind: dispatch to the matching `process_*`. -/
def ingest (env : Env) (k : FileKind) (b : Bytes) (f : Text) (st : RAGState) :
    RAGState × ProcResult :=
  match k with
  | .document => processDocument env b f st
  | .video => processVideo env b f st
  | .audio => processAudio env b f st

/-- One element of the result list built by `MultimodalRAG.search`. -/
structure SearchResult where
  fileHash : Text
  filename : Text
  fileType : Text
  relevanceSnippet : Text
  metadata : Record
deriving DecidableEq

/-- The searchable text of a record as selected by `search`:
`metadata.get('text_content', '')` for documents,
`metadata.get('transcription', '')` otherwise. -/
def searchableText (m : Record) : Text :=
  if m.fileType = txt "document" then m.textContent.getD [] else m.transcription.getD []

/-- The kind filter of `search`: skip a record iff
`file_types and metadata['file_type'] not in file_types` — `None` and the
empty list are both falsy, hence filter nothing. -/
def passesFilter (ft : Option (List Text)) (k : Text) : Bool :=
  match ft with
  | none => true
  | some l => if l = [] then true else decide (k ∈ l)

/-- `MultimodalRAG._get_snippet(text, query, context_size)` (default 100). -/
def getSnippet (text q : Text) (contextSize : Nat) : Text :=
  match pyFind (pyLower text) (pyLower q) with
  | none => text.take contextSize ++ txt "..."
  | some idx =>
    let start := idx - contextSize / 2
    let stop := min text.length (idx + q.length + contextSize / 2)
    let snip := (text.drop start).take (stop - start)
    let snip := if 0 < start then txt "..." ++ snip else snip
    if stop < text.length then snip ++ txt "..." else snip

/-- The result dict appended by `search` for a matching index entry. -/
def mkResult (q fh : Text) (m : Record) : SearchResult :=
  ⟨fh, m.filename, m.fileType, getSnippet (searchableText m) q 100, m⟩

/-- `MultimodalRAG.search(query, file_types)`: linear scan over the index in
iteration (= insertion) order, kind filter, case-insensitive substring
match. -/
def search (q : Text) (ft : Option (List Text)) (st : RAGState) : List SearchResult :=
  (st.index.filter fun e => passesFilter ft e.2.fileType && containsCI (searchableText e.2) q).map
    fun e => mkResult q e.1 e.2

/-- An HTTP error raised by a FastAPI endpoint (`HTTPException`). -/
structure HttpError where
  statusCode : Nat
  detail : Text
deriving DecidableEq

/-- Body of a successful `/search` response. -/
structure SearchResponse where
  query : Text
  results : List SearchResult
  count : Nat
deriving DecidableEq

/-- The FastAPI `GET /search` handler `search_files(query, file_types)`:
rejects a falsy (empty) query with HTTP 400 before calling
`rag_system.search`; otherwise splits the comma-separated kind filter. -/
def searchFiles (query : Text) (fileTypes : Option Text) (st : RAGState) :
    Except HttpError SearchResponse :=
  if query = [] then .error ⟨400, txt "Query parameter is required"⟩
  else
    let typesList : Option (List Text) :=
      match fileTypes with
      | none => none
      | some s => if s = [] then none else some ((splitComma s).map pyStrip)
    let results := search query typesList st
    .ok ⟨query, results, results.length⟩

/-! ## Association-list (dict) lemmas -/

theorem keysOf_nil : keysOf [] = [] := rfl

theorem keysOf_cons (e : Text × Record) (l : List (Text × Record)) :
    keysOf (e :: l) = e.1 :: keysOf l := rfl

theorem fst_mem_keysOf {e : Text × Record} {l : List (Text × Record)}
    (h : e ∈ l) : e.1 ∈ keysOf l := List.mem_map_of_mem Prod.fst h

theorem countKey_cons (k : Text) (e : Text × Record) (l : List (Text × Record)) :
    countKey k (e :: l) = (if e.1 = k then 1 else 0) + countKey k l := by
  by_cases h : e.1 = k <;>
    simp [countKey, List.filter_cons, h, Nat.add_comm]

theorem getRec_upsert_self (k : Text) (v : Record) (l : List (Text × Record)) :
    getRec k (upsert k v l) = some v := by
  induction l with
  | nil => simp [upsert, getRec]
  | cons e rest ih =>
    obtain ⟨k', v'⟩ := e
    by_cases h : k' = k <;> simp [upsert, getRec, h, ih]

theorem keysOf_upsert (k : Text) (v : Record) (l : List (Text × Record)) :
    keysOf (upsert k v l) = if k ∈ keysOf l then keysOf l else keysOf l ++ [k] := by
  induction l with
  | nil => simp [upsert, keysOf_cons, keysOf_nil]
  | cons e rest ih =>
    obtain ⟨k', v'⟩ := e
    by_cases h : k' = k
    · subst h
      simp [upsert, keysOf_cons]
    · have hne : ¬k = k' := fun hh => h hh.symm
      have hstep : upsert k v ((k', v') :: rest) = (k', v') :: upsert k v rest := by
        simp [upsert, h]
      rw [hstep, keysOf_cons, keysOf_cons, ih]
      by_cases hm : k ∈ keysOf rest
      · simp [hm, List.mem_cons, hne]
      · simp [hm, List.mem_cons, hne]

theorem mem_keysOf_upsert_self (k : Text) (v : Record) (l : List (Text × Record)) :
    k ∈ keysOf (upsert k v l) := by
  rw [keysOf_upsert]
  by_cases h : k ∈ keysOf l <;> simp [h]

theorem length_upsert_of_mem (k : Text) (v : Record) (l : List (Text × Record))
    (h : k ∈ keysOf l) : (upsert k v l).length = l.length := by
  induction l with
  | nil => simp [keysOf_nil] at h
  | cons e rest ih =>
    obtain ⟨k', v'⟩ := e
    by_cases hk : k' = k
    · simp [upsert, hk]
    · have hmem : k ∈ keysOf rest := by
        rw [keysOf_cons, List.mem_cons] at h
        rcases h with h | h
        · exact absurd h.symm hk
        · exact h
      simp [upsert, hk, ih hmem]

theorem countKey_eq_zero_of_not_mem (k : Text) (l : List (Text × Record))
    (h : k ∉ keysOf l) : countKey k l = 0 := by
  induction l with
  | nil => rfl
  | cons e rest ih =>
    rw [keysOf_cons, List.mem_cons] at h
    push_neg at h
    rw [countKey_cons, if_neg (fun hh => h.1 hh.symm), ih h.2]

theorem countKey_upsert_nodup (k : Text) (v : Record) (l : List (Text × Record))
    (h : (keysOf l).Nodup) : countKey k (upsert k v l) = 1 := by
  induction l with
  | nil => simp [upsert, countKey]
  | cons e rest ih =>
    obtain ⟨k', v'⟩ := e
    rw [keysOf_cons, List.nodup_cons] at h
    by_cases hk : k' = k
    · subst hk
      have hz : countKey k' rest = 0 := countKey_eq_zero_of_not_mem k' rest h.1
      simp [upsert, countKey_cons, hz]
    · have hstep : upsert k v ((k', v') :: rest) = (k', v') :: upsert k v rest := by
        simp [upsert, hk]
      rw [hstep, countKey_cons, if_neg hk, ih h.2]

theorem nodup_keysOf_upsert (k : Text) (v : Record) (l : List (Text × Record))
    (h : (keysOf l).Nodup) : (keysOf (upsert k v l)).Nodup := by
  rw [keysOf_upsert]
  by_cases hm : k ∈ keysOf l
  · simpa [hm] using h
  · simp only [hm, if_false]
    simpa [List.nodup_append] using ⟨h, hm⟩

theorem mem_upsert_elim {e : Text × Record} {k : Text} {v : Record}
    {l : List (Text × Record)} (hnd : (keysOf l).Nodup)
    (h : e ∈ upsert k v l) : e = (k, v) ∨ (e ∈ l ∧ e.1 ≠ k) := by
  induction l with
  | nil => simpa [upsert] using h
  | cons p rest ih =>
    obtain ⟨k', v'⟩ := p
    rw [keysOf_cons, List.nodup_cons] at hnd
    by_cases hk : k' = k
    · subst hk
      have hstep : upsert k' v ((k', v') :: rest) = (k', v) :: rest := by
        simp [upsert]
      rw [hstep] at h
      rcases List.mem_cons.1 h with h | h
      · exact Or.inl h
      · refine Or.inr ⟨List.mem_cons_of_mem _ h, fun hek => ?_⟩
        have hmem := fst_mem_keysOf h
        rw [hek] at hmem
        exact hnd.1 hmem
    · have hstep : upsert k v ((k', v') :: rest) = (k', v') :: upsert k v rest := by
        simp [upsert, hk]
      rw [hstep] at h
      rcases List.mem_cons.1 h with h | h
      · refine Or.inr ⟨by simp [h], ?_⟩
        rw [h]
        exact hk
      · rcases ih hnd.2 h with h1 | h1
        · exact Or.inl h1
        · exact Or.inr ⟨List.mem_cons_of_mem _ h1.1, h1.2⟩

/-! ## Substring-search lemmas -/

theorem pfx_length_le : ∀ {a b : Text}, pfx a b = true → a.length ≤ b.length
  | [], _, _ => Nat.zero_le _
  | _ :: _, [], h => by simp [pfx] at h
  | a :: as, b :: bs, h => by
    rw [pfx, Bool.and_eq_true] at h
    simpa using pfx_length_le h.2

theorem pfx_of_take : ∀ (a : Text) (m : Nat) (t : Text),
    pfx a (t.take m) = true → pfx a t = true
  | [], _, _, _ => rfl
  | x :: xs, 0, t, h => by simp [pfx] at h
  | x :: xs, m + 1, [], h => by simp [pfx] at h
  | x :: xs, m + 1, c :: t, h => by
    rw [List.take_succ_cons, pfx, Bool.and_eq_true] at h
    rw [pfx, Bool.and_eq_true]
    exact ⟨h.1, pfx_of_take xs m t h.2⟩

theorem findFrom_eq_some : ∀ (pat hay : Text) (i j : Nat),
    findFrom pat hay i = some j → ∃ p, j = i + p ∧ pfx pat (hay.drop p) = true := by
  intro pat hay
  induction hay with
  | nil =>
    intro i j h
    rw [findFrom] at h
    by_cases hp : pfx pat [] = true
    · rw [if_pos hp] at h
      exact ⟨0, by simpa using h.symm, by simpa using hp⟩
    · simp [hp] at h
  | cons c rest ih =>
    intro i j h
    rw [findFrom] at h
    by_cases hp : pfx pat (c :: rest) = true
    · rw [if_pos hp] at h
      exact ⟨0, by simpa using h.symm, by simpa using hp⟩
    · rw [if_neg hp] at h
      obtain ⟨p, hpj, hpf⟩ := ih (i + 1) j h
      exact ⟨p + 1, by omega, by simpa using hpf⟩

theorem findFrom_isSome : ∀ (pat hay : Text) (p i : Nat),
    pfx pat (hay.drop p) = true → (findFrom pat hay i).isSome = true := by
  intro pat hay
  induction hay with
  | nil =>
    intro p i h
    rw [List.drop_nil] at h
    rw [findFrom, if_pos h]
    rfl
  | cons c rest ih =>
    intro p i h
    rw [findFrom]
    by_cases hp : pfx pat (c :: rest) = true
    · rw [if_pos hp]; rfl
    · rw [if_neg hp]
      match p with
      | 0 => exact absurd (by simpa using h) hp
      | p' + 1 => exact ih p' (i + 1) (by simpa using h)

theorem pyContains_of_occurrence {hay pat : Text} {p : Nat}
    (h : pfx pat (hay.drop p) = true) : pyContains hay pat = true :=
  findFrom_isSome pat hay p 0 h

theorem occurrence_of_pyContains {hay pat : Text} (h : pyContains hay pat = true) :
    ∃ p, pfx pat (hay.drop p) = true := by
  rw [pyContains, Option.isSome_iff_exists] at h
  obtain ⟨j, hj⟩ := h
  obtain ⟨p, _, hpf⟩ := findFrom_eq_some pat hay 0 j hj
  exact ⟨p, hpf⟩

theorem containsCI_nil (t : Text) : containsCI t [] = true := by
  rw [containsCI, pyContains, pyFind]
  cases pyLower t <;> rfl

theorem getStore_put_self (p : FPath) (b : Bytes) (s : List (FPath × Bytes)) :
    getStore p (storePut p b s) = some b := by
  induction s with
  | nil => simp [storePut, getStore]
  | cons e rest ih =>
    obtain ⟨p', b'⟩ := e
    by_cases h : p' = p <;> simp [storePut, getStore, h, ih]

theorem getStore_put_ne {p' p : FPath} (b : Bytes) (s : List (FPath × Bytes))
    (h : p' ≠ p) : getStore p' (storePut p b s) = getStore p' s := by
  have h2 : ¬p = p' := fun hh => h hh.symm
  induction s with
  | nil => simp [storePut, getStore, h2]
  | cons e rest ih =>
    obtain ⟨q, c⟩ := e
    by_cases hq : q = p
    · subst hq
      simp [storePut, getStore, h2]
    · simp [storePut, getStore, hq, ih]

/-! ## Chunking lemmas

The `_chunk_text` loop is analysed through two invariants over its fold
state: `Rep` (the chunks are space-joins of a partition, in order, of the
words consumed so far — this yields the reconstruction law) and `Inv`
(size accounting: `current_size` is the joined length of `current_chunk`
or that plus one, so every closed chunk is at most `N + 1` characters long
unless it is a single oversized word). -/

theorem sjoin_nil : sjoin [] = [] := rfl

theorem sjoin_singleton (w : Text) : sjoin [w] = w := rfl

theorem sjoin_cons_ne (x : Text) {xs : List Text} (h : xs ≠ []) :
    sjoin (x :: xs) = x ++ ' ' :: sjoin xs := by
  cases xs with
  | nil => exact absurd rfl h
  | cons y r => rfl

theorem sjoin_append : ∀ {a : List Text}, a ≠ [] → ∀ {b : List Text}, b ≠ [] →
    sjoin (a ++ b) = sjoin a ++ ' ' :: sjoin b
  | [], ha, _, _ => absurd rfl ha
  | [x], _, b, hb => by
    rw [List.singleton_append, sjoin_cons_ne x hb, sjoin_singleton]
  | x :: x2 :: xs, _, b, hb => by
    have h1 : x2 :: xs ++ b ≠ [] := by simp
    have h2 : (x2 :: xs : List Text) ≠ [] := by simp
    rw [List.cons_append, sjoin_cons_ne x h1, sjoin_append h2 hb,
      sjoin_cons_ne x h2, List.append_assoc, List.cons_append]

theorem sjoin_map_flatten : ∀ (gs : List (List Text)), (∀ g ∈ gs, g ≠ []) →
    sjoin (gs.map sjoin) = sjoin gs.flatten
  | [], _ => rfl
  | [g], _ => by simp [sjoin]
  | g :: g2 :: r, h => by
    have hg : g ≠ [] := h g (by simp)
    have hg2 : g2 ≠ [] := h g2 (by simp)
    have hflat : (g2 :: r).flatten ≠ [] := by
      rw [List.flatten_cons]
      exact fun hnil => hg2 (List.append_eq_nil.1 hnil).1
    have hmap : (g2 :: r).map sjoin ≠ [] := by simp
    have hrec : sjoin ((g2 :: r).map sjoin) = sjoin (g2 :: r).flatten :=
      sjoin_map_flatten (g2 :: r) (fun g' hg' => h g' (List.mem_cons_of_mem _ hg'))
    rw [List.map_cons, sjoin_cons_ne _ hmap, hrec]
    conv_rhs => rw [List.flatten_cons]
    rw [sjoin_append hg hflat]

/-- `Rep s ws`: the fold state `s` represents a partition of the consumed
words `ws` — the closed chunks are space-joins of nonempty groups and
`current_chunk` holds the remaining words. -/
def Rep (s : CState) (ws : List Text) : Prop :=
  ∃ gs : List (List Text),
    s.chunks = gs.map sjoin ∧ (∀ g ∈ gs, g ≠ []) ∧ gs.flatten ++ s.cur = ws

theorem rep_step (N : Nat) (s : CState) (w : Text) (ws : List Text)
    (h : Rep s ws) : Rep (chunkStep N s w) (ws ++ [w]) := by
  obtain ⟨gs, hc, hne, hj⟩ := h
  rw [chunkStep]
  by_cases hcond : N < s.size + w.length ∧ s.cur ≠ []
  · rw [if_pos hcond]
    refine ⟨gs ++ [s.cur], ?_, ?_, ?_⟩
    · simp [hc]
    · intro g hg
      rcases List.mem_append.1 hg with hg | hg
      · exact hne g hg
      · rw [List.mem_singleton.1 hg]
        exact hcond.2
    · show (gs ++ [s.cur]).flatten ++ [w] = ws ++ [w]
      rw [List.flatten_append, List.flatten_cons, List.flatten_nil,
        List.append_nil, hj]
  · rw [if_neg hcond]
    refine ⟨gs, hc, hne, ?_⟩
    show gs.flatten ++ (s.cur ++ [w]) = ws ++ [w]
    rw [← List.append_assoc, hj]

theorem rep_fold (N : Nat) : ∀ (l : List Text) (s : CState) (ws : List Text),
    Rep s ws → Rep (l.foldl (chunkStep N) s) (ws ++ l)
  | [], s, ws, h => by simpa using h
  | w :: rest, s, ws, h => by
    rw [List.foldl_cons]
    have h1 := rep_step N s w ws h
    have h2 := rep_fold N rest (chunkStep N s w) (ws ++ [w]) h1
    simpa using h2

/-- Joining the chunks with single spaces reconstructs the word sequence
joined with single spaces, for an arbitrary word list. -/
theorem sjoin_chunkWords (ws : List Text) (N : Nat) :
    sjoin (chunkWords ws N) = sjoin ws := by
  have h0 : Rep ⟨[], [], 0⟩ [] := ⟨[], rfl, by simp, rfl⟩
  have h := rep_fold N ws ⟨[], [], 0⟩ [] h0
  rw [List.nil_append] at h
  obtain ⟨gs, hc, hne, hj⟩ := h
  rw [chunkWords, chunkFinish]
  by_cases hcur : (ws.foldl (chunkStep N) ⟨[], [], 0⟩).cur = []
  · rw [if_pos hcur]
    rw [hcur, List.append_nil] at hj
    rw [hc, sjoin_map_flatten gs hne, hj]
  · rw [if_neg hcur]
    have hne' : ∀ g ∈ gs ++ [(ws.foldl (chunkStep N) ⟨[], [], 0⟩).cur], g ≠ [] := by
      intro g hg
      rcases List.mem_append.1 hg with hg | hg
      · exact hne g hg
      · rw [List.mem_singleton.1 hg]
        exact hcur
    have hmap : gs.map sjoin ++ [sjoin (ws.foldl (chunkStep N) ⟨[], [], 0⟩).cur] =
        (gs ++ [(ws.foldl (chunkStep N) ⟨[], [], 0⟩).cur]).map sjoin := by
      simp
    rw [hc, hmap, sjoin_map_flatten _ hne', List.flatten_append, List.flatten_cons,
      List.flatten_nil, List.append_nil, hj]

/-- Size-accounting invariant of the `_chunk_text` loop: every closed chunk
is within `N + 1` characters or is a single word of the input; the running
`current_size` equals the joined length of `current_chunk` or exceeds it by
exactly one. -/
def Inv (N : Nat) (ws0 : List Text) (s : CState) : Prop :=
  (∀ c ∈ s.chunks, c.length ≤ N + 1 ∨ c ∈ ws0) ∧
  ((s.cur = [] ∧ s.size = 0) ∨
   (s.cur ≠ [] ∧
    (s.size = (sjoin s.cur).length ∨ s.size = (sjoin s.cur).length + 1) ∧
    ((sjoin s.cur).length ≤ N + 1 ∨ ∃ w, s.cur = [w]) ∧
    (∀ x ∈ s.cur, x ∈ ws0)))

/-- An oversized word is tracked: it already sits among the closed chunks,
or it is exactly the current chunk. -/
def OTrack (s : CState) (w0 : Text) : Prop := w0 ∈ s.chunks ∨ s.cur = [w0]

theorem sjoin_snoc_length {cur : List Text} (h : cur ≠ []) (w : Text) :
    (sjoin (cur ++ [w])).length = (sjoin cur).length + 1 + w.length := by
  have hw : ([w] : List Text) ≠ [] := by simp
  rw [sjoin_append h hw, List.length_append, List.length_cons, sjoin_singleton]
  omega

theorem inv_step {N : Nat} {ws0 : List Text} {s : CState} {w : Text}
    (hw : w ∈ ws0) (h : Inv N ws0 s) : Inv N ws0 (chunkStep N s w) := by
  obtain ⟨hchunks, hcur⟩ := h
  by_cases hcond : N < s.size + w.length ∧ s.cur ≠ []
  · rw [chunkStep, if_pos hcond]
    refine ⟨?_, Or.inr ⟨by simp,
      Or.inl (by show w.length = (sjoin [w]).length; rw [sjoin_singleton]),
      Or.inr ⟨w, rfl⟩, ?_⟩⟩
    · intro c hc
      rcases List.mem_append.1 hc with hc | hc
      · exact hchunks c hc
      · rw [List.mem_singleton.1 hc]
        rcases hcur with ⟨hnil, _⟩ | ⟨_, _, hbound, hmem⟩
        · exact absurd hnil hcond.2
        · rcases hbound with hb | ⟨w', hw'⟩
          · exact Or.inl hb
          · refine Or.inr ?_
            rw [hw', sjoin_singleton]
            exact hmem w' (by rw [hw']; simp)
    · intro x hx
      rw [List.mem_singleton.1 hx]
      exact hw
  · rw [chunkStep, if_neg hcond]
    refine ⟨hchunks, ?_⟩
    rcases hcur with ⟨hnil, hsz⟩ | ⟨hne, hsz, hbound, hmem⟩
    · refine Or.inr ⟨by simp [hnil], ?_, ?_, ?_⟩
      · show s.size + w.length + 1 = (sjoin (s.cur ++ [w])).length ∨
          s.size + w.length + 1 = (sjoin (s.cur ++ [w])).length + 1
        rw [hnil, hsz, List.nil_append, sjoin_singleton]
        omega
      · refine Or.inr ⟨w, ?_⟩
        show s.cur ++ [w] = [w]
        rw [hnil, List.nil_append]
      · intro x hx
        show x ∈ ws0
        rw [hnil, List.nil_append, List.mem_singleton] at hx
        rw [hx]
        exact hw
    · have hle : s.size + w.length ≤ N := by
        rcases Nat.lt_or_ge N (s.size + w.length) with hlt | hge
        · exact absurd ⟨hlt, hne⟩ hcond
        · exact hge
      have hlen := sjoin_snoc_length hne w
      refine Or.inr ⟨by simp, ?_, ?_, ?_⟩
      · show s.size + w.length + 1 = (sjoin (s.cur ++ [w])).length ∨
          s.size + w.length + 1 = (sjoin (s.cur ++ [w])).length + 1
        rcases hsz with hsz | hsz <;> omega
      · refine Or.inl ?_
        show (sjoin (s.cur ++ [w])).length ≤ N + 1
        rcases hsz with hsz | hsz <;> omega
      · intro x hx
        rcases List.mem_append.1 hx with hx | hx
        · exact hmem x hx
        · rw [List.mem_singleton.1 hx]
          exact hw

theorem otrack_step {N : Nat} {ws0 : List Text} {s : CState} {w w0 : Text}
    (h : Inv N ws0 s) (ht : OTrack s w0) (hbig : N < w0.length) :
    OTrack (chunkStep N s w) w0 := by
  rw [chunkStep]
  by_cases hcond : N < s.size + w.length ∧ s.cur ≠ []
  · rw [if_pos hcond]
    rcases ht with ht | ht
    · exact Or.inl (List.mem_append.2 (Or.inl ht))
    · refine Or.inl (List.mem_append.2 (Or.inr ?_))
      rw [ht, sjoin_singleton]
      simp
  · rw [if_neg hcond]
    rcases ht with ht | ht
    · exact Or.inl ht
    · exfalso
      have hne : s.cur ≠ [] := by rw [ht]; simp
      have hle : s.size + w.length ≤ N := by
        rcases Nat.lt_or_ge N (s.size + w.length) with hlt | hge
        · exact absurd ⟨hlt, hne⟩ hcond
        · exact hge
      rcases h.2 with ⟨hnil, _⟩ | ⟨_, hsz, _, _⟩
      · exact hne hnil
      · rw [ht, sjoin_singleton] at hsz
        omega

theorem otrack_new {N : Nat} {s : CState} {w : Text} (hbig : N < w.length) :
    OTrack (chunkStep N s w) w := by
  rw [chunkStep]
  by_cases hcond : N < s.size + w.length ∧ s.cur ≠ []
  · rw [if_pos hcond]
    exact Or.inr rfl
  · rw [if_neg hcond]
    have hcur : s.cur = [] := by
      rcases Nat.lt_or_ge N (s.size + w.length) with hlt | hge
      · by_cases hc : s.cur = []
        · exact hc
        · exact absurd ⟨hlt, hc⟩ hcond
      · omega
    rw [hcur]
    exact Or.inr rfl

theorem inv_fold {N : Nat} {ws0 : List Text} : ∀ (l : List Text) (s : CState),
    Inv N ws0 s → (∀ w ∈ l, w ∈ ws0) →
    Inv N ws0 (l.foldl (chunkStep N) s) ∧
    (∀ w0, N < w0.length → OTrack s w0 → OTrack (l.foldl (chunkStep N) s) w0) ∧
    (∀ w0 ∈ l, N < w0.length → OTrack (l.foldl (chunkStep N) s) w0)
  | [], s, h, _ => ⟨h, fun _ _ ht => ht, by simp⟩
  | w :: rest, s, h, hl => by
    rw [List.foldl_cons]
    have hw : w ∈ ws0 := hl w (by simp)
    have h1 : Inv N ws0 (chunkStep N s w) := inv_step hw h
    have hrec := inv_fold rest (chunkStep N s w) h1
      (fun x hx => hl x (List.mem_cons_of_mem _ hx))
    refine ⟨hrec.1, ?_, ?_⟩
    · intro w0 hbig ht
      exact hrec.2.1 w0 hbig (otrack_step h ht hbig)
    · intro w0 hw0 hbig
      rcases List.mem_cons.1 hw0 with hw0 | hw0
      · subst hw0
        exact hrec.2.1 w0 hbig (otrack_new hbig)
      · exact hrec.2.2 w0 hw0 hbig

theorem chunkWords_bound (ws : List Text) (N : Nat) :
    ∀ c ∈ chunkWords ws N, c.length ≤ N + 1 ∨ c ∈ ws := by
  have h0 : Inv N ws (⟨[], [], 0⟩ : CState) := ⟨by simp, Or.inl ⟨rfl, rfl⟩⟩
  have h := (inv_fold ws ⟨[], [], 0⟩ h0 (fun w hw => hw)).1
  intro c hc
  rw [chunkWords, chunkFinish] at hc
  by_cases hcur : (ws.foldl (chunkStep N) ⟨[], [], 0⟩).cur = []
  · rw [if_pos hcur] at hc
    exact h.1 c hc
  · rw [if_neg hcur] at hc
    rcases List.mem_append.1 hc with hc | hc
    · exact h.1 c hc
    · rw [List.mem_singleton.1 hc]
      rcases h.2 with ⟨hnil, _⟩ | ⟨_, _, hbound, hmem⟩
      · exact absurd hnil hcur
      · rcases hbound with hb | ⟨w', hw'⟩
        · exact Or.inl hb
        · refine Or.inr ?_
          rw [hw', sjoin_singleton]
          exact hmem w' (by rw [hw']; simp)

theorem chunkWords_oversize (ws : List Text) (N : Nat) {w : Text}
    (hw : w ∈ ws) (hbig : N < w.length) : w ∈ chunkWords ws N := by
  have h0 : Inv N ws (⟨[], [], 0⟩ : CState) := ⟨by simp, Or.inl ⟨rfl, rfl⟩⟩
  have h := (inv_fold ws ⟨[], [], 0⟩ h0 (fun x hx => hx)).2.2 w hw hbig
  rw [chunkWords, chunkFinish]
  by_cases hcur : (ws.foldl (chunkStep N) ⟨[], [], 0⟩).cur = []
  · rw [if_pos hcur]
    rcases h with h | h
    · exact h
    · rw [h] at hcur
      simp at hcur
  · rw [if_neg hcur]
    rcases h with h | h
    · exact List.mem_append.2 (Or.inl h)
    · refine List.mem_append.2 (Or.inr ?_)
      rw [h, sjoin_singleton]
      simp

/-! ## Claim theorems -/

/-- C5: `chunk(text, N)` is a pure deterministic function of `(text, N)` —
it is modelled as a Lean function, so repeated calls necessarily return an
identical sequence — joining the returned chunks with single spaces
reconstructs the whitespace-normalized word sequence of `text` (the words
of `text` joined by single spaces), and empty text yields the empty
sequence. -/
theorem chunk_reconstruction (t : Text) (N : Nat) :
    sjoin (chunkText t N) = sjoin (pysplit t) ∧ chunkText [] N = [] :=
  ⟨sjoin_chunkWords (pysplit t) N, rfl⟩

/-- C4 counterexample: for `text = "ab cd a b"` and `N = 3` the code emits
the chunk `"cd a"` of length `4 > N`, which is not a single word of the
input (both its words have length `≤ N`), refuting the claimed bound. -/
theorem chunk_bound_counterexample :
    txt "cd a" ∈ chunkText (txt "ab cd a b") 3 ∧ (txt "cd a").length = 4 ∧
    txt "cd a" ∉ pysplit (txt "ab cd a b") := by
  decide

/-- C4 amended: every chunk returned by `chunk(text, N)` has length at most
`N + 1` (not `N`: on a chunk opened by an overflow flush, `current_size` is
initialised to `len(word)` instead of `len(word) + 1`, so one extra
character fits), except a chunk consisting of a single word whose own
length exceeds `N + 1`; an oversized word (longer than `N`) is never split
and becomes its own chunk. -/
theorem chunk_bound_amended (t : Text) (N : Nat) :
    (∀ c ∈ chunkText t N, c.length ≤ N + 1 ∨ (c ∈ pysplit t ∧ N + 1 < c.length)) ∧
    (∀ w ∈ pysplit t, N < w.length → w ∈ chunkText t N) := by
  constructor
  · intro c hc
    rcases chunkWords_bound (pysplit t) N c hc with h | h
    · exact Or.inl h
    · by_cases hlen : c.length ≤ N + 1
      · exact Or.inl hlen
      · exact Or.inr ⟨h, by omega⟩
  · intro w hw hbig
    exact chunkWords_oversize (pysplit t) N hw hbig

/-- C4 amended, witness at `text = "abcdef gh"`, `N = 3`: the oversized
word `"abcdef"` becomes its own chunk, and the chunk `"gh"` satisfies the
`N + 1` bound. -/
theorem chunk_bound_amended_witness :
    (txt "abcdef" ∈ pysplit (txt "abcdef gh") ∧ 3 < (txt "abcdef").length ∧
      txt "abcdef" ∈ chunkText (txt "abcdef gh") 3) ∧
    (txt "gh" ∈ chunkText (txt "abcdef gh") 3 ∧
      ((txt "gh").length ≤ 3 + 1 ∨
        (txt "gh" ∈ pysplit (txt "abcdef gh") ∧ 3 + 1 < (txt "gh").length))) :=
  ⟨⟨by decide, by decide,
    (chunk_bound_amended (txt "abcdef gh") 3).2 (txt "abcdef") (by decide) (by decide)⟩,
   ⟨by decide, (chunk_bound_amended (txt "abcdef gh") 3).1 (txt "gh") (by decide)⟩⟩

/-- C6: the empty query matches every record (the empty string is a
substring of any text, and Python `find` returns `0`), so `search("", F)`
returns exactly the records passing the kind filter, in index order. -/
theorem search_empty_query (ft : Option (List Text)) (st : RAGState) :
    search [] ft st = (st.index.filter fun e => passesFilter ft e.2.fileType).map
      fun e => mkResult [] e.1 e.2 := by
  rw [search]
  congr 1
  apply List.filter_congr
  intro e _
  rw [containsCI_nil, Bool.and_true]

/-- C7: if the query does not occur case-insensitively in the text,
`_get_snippet` with the default `context_size = 100` returns exactly
`text[0:100] + "..."` — the ellipsis is appended even when the text is
shorter than 100 characters. -/
theorem snippet_fallback (text q : Text) (h : containsCI text q = false) :
    getSnippet text q 100 = text.take 100 ++ txt "..." := by
  rw [containsCI, pyContains] at h
  rw [getSnippet]
  cases hfind : pyFind (pyLower text) (pyLower q) with
  | none => rfl
  | some j =>
    rw [hfind] at h
    simp at h

/-- C7 witness: `"z"` does not occur in `"abcd"`, and the snippet is
`"abcd" + "..."` (the whole text, since it is shorter than 100). -/
theorem snippet_fallback_witness :
    containsCI (txt "abcd") (txt "z") = false ∧
    getSnippet (txt "abcd") (txt "z") 100 = (txt "abcd").take 100 ++ txt "..." :=
  ⟨by decide, snippet_fallback (txt "abcd") (txt "z") (by decide)⟩

/-- C10: the FastAPI `GET /search` handler rejects a falsy (empty) query
with HTTP 400 (`"Query parameter is required"`) for every state and every
kind filter, before `rag_system.search` is consulted — so the
empty-query-matches-everything behaviour of the core `search` is
unreachable through this entry point. -/
theorem search_endpoint_rejects_empty_query (fileTypes : Option Text) (st : RAGState) :
    searchFiles [] fileTypes st = Except.error ⟨400, txt "Query parameter is required"⟩ :=
  rfl

/-- C2: ingesting the same `(bytes, filename, kind)` twice in succession
yields the same hash both times (the digest is a function of the bytes
alone), leaves exactly one index record under that hash (the second
ingestion replaces it via dict assignment), and leaves the total number of
indexed records unchanged after the second ingestion.  The hypothesis is
the dict invariant: index keys are distinct. -/
theorem ingest_idempotent (env : Env) (k : FileKind) (b : Bytes) (f : Text)
    (st : RAGState) (hnd : (keysOf st.index).Nodup) :
    (ingest env k b f st).2.fileHash = env.hashHex b ∧
    (ingest env k b f (ingest env k b f st).1).2.fileHash = env.hashHex b ∧
    countKey (env.hashHex b) (ingest env k b f (ingest env k b f st).1).1.index = 1 ∧
    (ingest env k b f (ingest env k b f st).1).1.index.length =
      (ingest env k b f st).1.index.length := by
  cases k <;>
    exact ⟨rfl, rfl,
      countKey_upsert_nodup _ _ _ (nodup_keysOf_upsert _ _ _ hnd),
      length_upsert_of_mem _ _ _ (mem_keysOf_upsert_self _ _ _)⟩

/-- A concrete environment for witnesses: the digest tags the raw bytes,
utf-8 decoding yields `"hi"`, and no parser library is installed. -/
def wEnv : Env :=
  ⟨fun b => '#' :: b.map Char.ofNat, fun _ => txt "hi",
   fun _ => XResult.importErr, fun _ => XResult.importErr,
   fun _ => VResult.importErr, fun _ => AResult.importErr⟩

/-- C2 witness: ingesting the byte `72` as document `a.txt` twice into the
empty state. -/
theorem ingest_idempotent_witness :
    (keysOf (⟨[], []⟩ : RAGState).index).Nodup ∧
    ((ingest wEnv .document [72] (txt "a.txt") ⟨[], []⟩).2.fileHash = wEnv.hashHex [72] ∧
     (ingest wEnv .document [72] (txt "a.txt")
        (ingest wEnv .document [72] (txt "a.txt") ⟨[], []⟩).1).2.fileHash = wEnv.hashHex [72] ∧
     countKey (wEnv.hashHex [72]) (ingest wEnv .document [72] (txt "a.txt")
        (ingest wEnv .document [72] (txt "a.txt") ⟨[], []⟩).1).1.index = 1 ∧
     (ingest wEnv .document [72] (txt "a.txt")
        (ingest wEnv .document [72] (txt "a.txt") ⟨[], []⟩).1).1.index.length =
       (ingest wEnv .document [72] (txt "a.txt") ⟨[], []⟩).1.index.length) :=
  ⟨List.nodup_nil,
   ingest_idempotent wEnv .document [72] (txt "a.txt") ⟨[], []⟩ List.nodup_nil⟩

/-- C1 counterexample: ingesting identical bytes first as a document
(`a.txt`) and then as a video (`a.mp4`) leaves ONE index record (the video
record silently replaced the document record, because the index key is the
content digest and ignores the declared kind), not two independent records
— even though the two blobs are stored independently (storage holds two
entries, one per kind subdirectory). -/
theorem cross_kind_counterexample :
    (processVideo wEnv [72] (txt "a.mp4")
      (processDocument wEnv [72] (txt "a.txt") ⟨[], []⟩).1).1.index.length = 1 ∧
    (processVideo wEnv [72] (txt "a.mp4")
      (processDocument wEnv [72] (txt "a.txt") ⟨[], []⟩).1).1.storage.length = 2 := by
  constructor <;> rfl

/-- C1 amended: the content hash is computed from the bytes only, ignoring
kind, and it is the sole index key.  Hence storage is 1:1 with
(content, kind) — the two blobs land at distinct paths in the two kind
subdirectories — but the index is keyed by content alone: ingesting
identical bytes under a second kind replaces the first record
(leaving one record, of the later kind, and an unchanged record count)
rather than indexing the pair independently. -/
theorem cross_kind_amended (env : Env) (b : Bytes) (f g : Text) (st : RAGState)
    (hnd : (keysOf st.index).Nodup) :
    countKey (env.hashHex b)
      (processVideo env b g (processDocument env b f st).1).1.index = 1 ∧
    (∃ rec, getRec (env.hashHex b)
        (processVideo env b g (processDocument env b f st).1).1.index = some rec ∧
      rec.fileType = txt "video") ∧
    (processVideo env b g (processDocument env b f st).1).1.index.length =
      (processDocument env b f st).1.index.length ∧
    getStore ⟨txt "documents", env.hashHex b ++ pySuffix f⟩
      (processVideo env b g (processDocument env b f st).1).1.storage = some b ∧
    getStore ⟨txt "videos", env.hashHex b ++ pySuffix g⟩
      (processVideo env b g (processDocument env b f st).1).1.storage = some b := by
  have hne : (⟨txt "documents", env.hashHex b ++ pySuffix f⟩ : FPath) ≠
      ⟨txt "videos", env.hashHex b ++ pySuffix g⟩ := by
    intro h
    have hdirs : txt "documents" ≠ txt "videos" := by decide
    have hd := congrArg FPath.dir h
    dsimp only at hd
    exact hdirs hd
  refine ⟨countKey_upsert_nodup _ _ _ (nodup_keysOf_upsert _ _ _ hnd),
    ⟨_, getRec_upsert_self _ _ _, rfl⟩,
    length_upsert_of_mem _ _ _ (mem_keysOf_upsert_self _ _ _), ?_, ?_⟩
  · have h1 : getStore ⟨txt "documents", env.hashHex b ++ pySuffix f⟩
        (storePut ⟨txt "videos", env.hashHex b ++ pySuffix g⟩ b
          (storePut ⟨txt "documents", env.hashHex b ++ pySuffix f⟩ b st.storage)) =
        some b := by
      rw [getStore_put_ne _ _ hne, getStore_put_self]
    exact h1
  · exact getStore_put_self _ _ _

/-- C1 amended witness: concrete run of the document-then-video ingestion
of identical bytes from the empty state. -/
theorem cross_kind_amended_witness :
    (keysOf (⟨[], []⟩ : RAGState).index).Nodup ∧
    (countKey (wEnv.hashHex [72])
       (processVideo wEnv [72] (txt "a.mp4")
         (processDocument wEnv [72] (txt "a.txt") ⟨[], []⟩).1).1.index = 1 ∧
     (∃ rec, getRec (wEnv.hashHex [72])
         (processVideo wEnv [72] (txt "a.mp4")
           (processDocument wEnv [72] (txt "a.txt") ⟨[], []⟩).1).1.index = some rec ∧
       rec.fileType = txt "video") ∧
     (processVideo wEnv [72] (txt "a.mp4")
       (processDocument wEnv [72] (txt "a.txt") ⟨[], []⟩).1).1.index.length =
       (processDocument wEnv [72] (txt "a.txt") ⟨[], []⟩).1.index.length ∧
     getStore ⟨txt "documents", wEnv.hashHex [72] ++ pySuffix (txt "a.txt")⟩
       (processVideo wEnv [72] (txt "a.mp4")
         (processDocument wEnv [72] (txt "a.txt") ⟨[], []⟩).1).1.storage = some [72] ∧
     getStore ⟨txt "videos", wEnv.hashHex [72] ++ pySuffix (txt "a.mp4")⟩
       (processVideo wEnv [72] (txt "a.mp4")
         (processDocument wEnv [72] (txt "a.txt") ⟨[], []⟩).1).1.storage = some [72]) :=
  ⟨List.nodup_nil,
   cross_kind_amended wEnv [72] (txt "a.txt") (txt "a.mp4") ⟨[], []⟩ List.nodup_nil⟩

/-- A document index record whose searchable text contains `"hello"`. -/
def docRec : Record :=
  ⟨txt "d.txt", txt "document", txt ".txt", txt "h1", ⟨txt "documents", txt "h1.txt"⟩,
   some (txt "hello world"), some 11, some [txt "hello world"], none, none, none, none⟩

/-- An audio index record whose transcription contains `"hello"`. -/
def audRec : Record :=
  ⟨txt "a.mp3", txt "audio", txt ".mp3", txt "h2", ⟨txt "audio", txt "h2.mp3"⟩,
   none, none, none, some 5, some (txt "hello there"), none, some 44100⟩

/-- A state holding only the document record. -/
def stDoc : RAGState := ⟨[(txt "h1", docRec)], []⟩

/-- A state holding the document record and the audio record. -/
def stDocAud : RAGState := ⟨[(txt "h1", docRec), (txt "h2", audRec)], []⟩

/-- C3 counterexample: with the provided (but empty) kind-filter set
`F = []`, the claim demands that every returned record have its kind in
`F` — i.e. that nothing be returned — but the code treats an empty list as
falsy and filters nothing: the matching document is returned even though
its kind is not a member of `F`. -/
theorem search_filter_counterexample :
    search (txt "hello") (some []) stDoc = [mkResult (txt "hello") (txt "h1") docRec] ∧
    (mkResult (txt "hello") (txt "h1") docRec).fileType ∉ ([] : List Text) := by
  exact ⟨rfl, by simp⟩

/-- C3 amended: for every query `S` and every NONEMPTY provided kind-filter
set `F`, `search(S, F)` returns exactly the records whose kind is a member
of `F` and whose searchable text (text preview for documents,
transcription otherwise) contains `S` case-insensitively; an empty
provided filter list is falsy in Python and behaves as no filter at all. -/
theorem search_filter_amended (q : Text) (F : List Text) (st : RAGState)
    (hF : F ≠ []) (r : SearchResult) :
    r ∈ search q (some F) st ↔
      ∃ e ∈ st.index, e.2.fileType ∈ F ∧ containsCI (searchableText e.2) q = true ∧
        r = mkResult q e.1 e.2 := by
  rw [search, List.mem_map]
  constructor
  · rintro ⟨e, he, hr⟩
    rw [List.mem_filter, Bool.and_eq_true] at he
    have hmem : e.2.fileType ∈ F := by
      have hp := he.2.1
      rw [passesFilter, if_neg hF] at hp
      exact of_decide_eq_true hp
    exact ⟨e, he.1, hmem, he.2.2, hr.symm⟩
  · rintro ⟨e, he, hmem, hci, hr⟩
    refine ⟨e, ?_, hr.symm⟩
    rw [List.mem_filter, Bool.and_eq_true]
    refine ⟨he, ?_, hci⟩
    rw [passesFilter, if_neg hF]
    exact decide_eq_true hmem

/-- C3 amended witness (the spec's Scenario B): a document and an audio
record both contain `"hello"`; filtering on kind `document` returns the
document. -/
theorem search_filter_amended_witness :
    ([txt "document"] : List Text) ≠ [] ∧
    mkResult (txt "hello") (txt "h1") docRec ∈
      search (txt "hello") (some [txt "document"]) stDocAud :=
  ⟨by decide,
   (search_filter_amended (txt "hello") [txt "document"] stDocAud (by decide)
       (mkResult (txt "hello") (txt "h1") docRec)).mpr
     ⟨(txt "h1", docRec), by decide, by decide, by decide, rfl⟩⟩

/-- C8: an extractor failure (missing PyPDF2 or an extraction exception)
is converted into a descriptive placeholder string and never surfaced as a
failure: `process_document` still stores the bytes under the content
digest in the documents directory, upserts a record into the (persisted)
index, and reports status `processed`, so the file remains indexed and
searchable. -/
theorem extraction_degradation (env : Env) (b : Bytes) (f : Text) (st : RAGState)
    (hext : pySuffix f = txt ".pdf")
    (hfail : env.pdfExtract b = XResult.importErr ∨
      ∃ m, env.pdfExtract b = XResult.exn m) :
    (processDocument env b f st).2.status = txt "processed" ∧
    (∃ rec, getRec (env.hashHex b) (processDocument env b f st).1.index = some rec ∧
      rec.fileType = txt "document" ∧ rec.filename = f ∧
      rec.textContent = some ((extractPdfText env b).take 1000)) ∧
    getStore ⟨txt "documents", env.hashHex b ++ txt ".pdf"⟩
      (processDocument env b f st).1.storage = some b ∧
    (extractPdfText env b = txt "PDF text extraction requires PyPDF2 library" ∨
     ∃ m, extractPdfText env b = txt "Error extracting PDF text: " ++ m) := by
  have hdisp : extractDocText env (pySuffix f) b = extractPdfText env b := by
    rw [hext, extractDocText, if_neg (by decide), if_pos rfl]
  refine ⟨rfl, ⟨_, getRec_upsert_self _ _ _, rfl, rfl, ?_⟩, ?_, ?_⟩
  · show some ((extractDocText env (pySuffix f) b).take 1000) =
      some ((extractPdfText env b).take 1000)
    rw [hdisp]
  · have hpath : (⟨txt "documents", env.hashHex b ++ txt ".pdf"⟩ : FPath)
        = ⟨txt "documents", env.hashHex b ++ pySuffix f⟩ := by rw [hext]
    rw [hpath]
    exact getStore_put_self _ _ _
  · rcases hfail with h | ⟨m, h⟩
    · refine Or.inl ?_
      unfold extractPdfText
      rw [h]
    · refine Or.inr ⟨m, ?_⟩
      unfold extractPdfText
      rw [h]

/-- C8 witness: a PDF upload into an environment without PyPDF2. -/
theorem extraction_degradation_witness :
    pySuffix (txt "a.pdf") = txt ".pdf" ∧
    (wEnv.pdfExtract [72] = XResult.importErr ∨
      ∃ m, wEnv.pdfExtract [72] = XResult.exn m) ∧
    ((processDocument wEnv [72] (txt "a.pdf") ⟨[], []⟩).2.status = txt "processed" ∧
     (∃ rec, getRec (wEnv.hashHex [72])
         (processDocument wEnv [72] (txt "a.pdf") ⟨[], []⟩).1.index = some rec ∧
       rec.fileType = txt "document" ∧ rec.filename = txt "a.pdf" ∧
       rec.textContent = some ((extractPdfText wEnv [72]).take 1000)) ∧
     getStore ⟨txt "documents", wEnv.hashHex [72] ++ txt ".pdf"⟩
       (processDocument wEnv [72] (txt "a.pdf") ⟨[], []⟩).1.storage = some [72] ∧
     (extractPdfText wEnv [72] = txt "PDF text extraction requires PyPDF2 library" ∨
      ∃ m, extractPdfText wEnv [72] = txt "Error extracting PDF text: " ++ m)) :=
  ⟨by decide, Or.inl rfl,
   extraction_degradation wEnv [72] (txt "a.pdf") ⟨[], []⟩ (by decide) (Or.inl rfl)⟩

/-- C9: a document record's searchable text is only the first 1000
characters of its extracted full text (`text_content[:1000]`), so for
every document whose extracted text contains the query only at positions
at or beyond character 1000, `search(query)` does not return that document
even though the full extracted text contains the query. -/
theorem truncated_preview_misses (env : Env) (b : Bytes) (f : Text) (st : RAGState)
    (q : Text) (hnd : (keysOf st.index).Nodup)
    (hall : ∀ p, occursAtCI (extractDocText env (pySuffix f) b) q p = true → 1000 ≤ p)
    (hsome : containsCI (extractDocText env (pySuffix f) b) q = true) :
    searchableText (docRecordOf env b f) =
      (extractDocText env (pySuffix f) b).take 1000 ∧
    ∀ r ∈ search q none (processDocument env b f st).1,
      r.fileHash ≠ env.hashHex b := by
  refine ⟨rfl, ?_⟩
  intro r hr hhash
  have hqne : q ≠ [] := by
    intro hq
    have h0 : occursAtCI (extractDocText env (pySuffix f) b) q 0 = true := by
      rw [occursAtCI, hq]
      rfl
    exact absurd (hall 0 h0) (by omega)
  rw [search, List.mem_map] at hr
  obtain ⟨e, he, hre⟩ := hr
  rw [List.mem_filter, Bool.and_eq_true] at he
  have hfh : e.1 = env.hashHex b := by
    rw [← hhash, ← hre]
    rfl
  rcases mem_upsert_elim hnd he.1 with heq | ⟨_, hne⟩
  · have hci := he.2.2
    rw [heq] at hci
    have hst : searchableText ((env.hashHex b, docRecordOf env b f) : Text × Record).2 =
        (extractDocText env (pySuffix f) b).take 1000 := rfl
    rw [hst, containsCI] at hci
    obtain ⟨p, hp⟩ := occurrence_of_pyContains hci
    have hlb := pfx_length_le hp
    have hlow : pyLower ((extractDocText env (pySuffix f) b).take 1000) =
        (pyLower (extractDocText env (pySuffix f) b)).take 1000 := by
      simp only [pyLower]
      rw [List.map_take]
    rw [hlow] at hp hlb
    rw [List.drop_take] at hp
    have hocc : occursAtCI (extractDocText env (pySuffix f) b) q p = true := by
      rw [occursAtCI]
      exact pfx_of_take _ _ _ hp
    have h1000 := hall p hocc
    have hq1 : 1 ≤ q.length := by
      cases q with
      | nil => exact absurd rfl hqne
      | cons c cs => simp
    have hlen : (pyLower q).length = q.length := by simp [pyLower]
    rw [hlen, List.length_drop, List.length_take] at hlb
    omega
  · exact hne hfh

/-- Environment for the C9 witness: the decoded text is 1000 copies of
`'a'` followed by a single `'z'`, so `"z"` occurs only at position 1000. -/
def env9 : Env :=
  ⟨fun _ => txt "h", fun _ => List.replicate 1000 'a' ++ ['z'],
   fun _ => XResult.importErr, fun _ => XResult.importErr,
   fun _ => VResult.importErr, fun _ => AResult.importErr⟩

theorem full9_eq : extractDocText env9 (pySuffix (txt "a.txt")) [0] =
    List.replicate 1000 'a' ++ ['z'] := rfl

theorem low9 : pyLower (List.replicate 1000 'a' ++ ['z']) =
    List.replicate 1000 'a' ++ ['z'] := by
  have ha : Char.toLower 'a' = 'a' := by decide
  have hz : Char.toLower 'z' = 'z' := by decide
  simp only [pyLower]
  rw [List.map_append, List.map_replicate, ha, List.map_cons, List.map_nil, hz]

theorem lowz : pyLower (txt "z") = ['z'] := by decide

theorem env9_occurrences_late : ∀ p,
    occursAtCI (extractDocText env9 (pySuffix (txt "a.txt")) [0]) (txt "z") p = true →
      1000 ≤ p := by
  intro p hocc
  by_contra hlt
  push_neg at hlt
  rw [full9_eq, occursAtCI, low9, lowz] at hocc
  have hdrop : (List.replicate 1000 'a' ++ ['z']).drop p =
      List.replicate (1000 - p) 'a' ++ ['z'] := by
    rw [List.drop_append_of_le_length (by rw [List.length_replicate]; omega),
      List.drop_replicate]
  rw [hdrop] at hocc
  obtain ⟨m, hm⟩ : ∃ m, 1000 - p = m + 1 := ⟨1000 - p - 1, by omega⟩
  rw [hm, List.replicate_succ, List.cons_append] at hocc
  simp only [pfx, Bool.and_eq_true] at hocc
  exact absurd (of_decide_eq_true hocc.1) (by decide)

theorem env9_contains :
    containsCI (extractDocText env9 (pySuffix (txt "a.txt")) [0]) (txt "z") = true := by
  rw [containsCI, full9_eq, low9, lowz]
  refine @pyContains_of_occurrence _ _ 1000 ?_
  rw [List.drop_append_of_le_length (by rw [List.length_replicate]),
    List.drop_replicate]
  decide

/-- C9 witness: the document whose text is 1000 `'a'`s then `'z'` is not
returned by `search("z")`, although its full text contains `"z"`. -/
theorem truncated_preview_misses_witness :
    (keysOf (⟨[], []⟩ : RAGState).index).Nodup ∧
    (∀ p, occursAtCI (extractDocText env9 (pySuffix (txt "a.txt")) [0]) (txt "z") p = true
      → 1000 ≤ p) ∧
    containsCI (extractDocText env9 (pySuffix (txt "a.txt")) [0]) (txt "z") = true ∧
    (searchableText (docRecordOf env9 [0] (txt "a.txt")) =
      (extractDocText env9 (pySuffix (txt "a.txt")) [0]).take 1000 ∧
    ∀ r ∈ search (txt "z") none (processDocument env9 [0] (txt "a.txt") ⟨[], []⟩).1,
      r.fileHash ≠ env9.hashHex [0]) :=
  ⟨List.nodup_nil, env9_occurrences_late, env9_contains,
   truncated_preview_misses env9 [0] (txt "a.txt") ⟨[], []⟩ (txt "z")
     List.nodup_nil env9_occurrences_late env9_contains⟩

end MMRag
